import Mathlib

/-!
Verification of the Ybus admittance-matrix builder (`calculate_ybus`), the
complex formatter (`format_complex`) and the submission validation of
`app.py`.  Python complex numbers are modelled exactly as pairs of
rationals; numpy integer indexing (wrap-around for negative indices in
range, index error otherwise) is modelled by `npIdx`.
-/

set_option allowUnsafeReducibility true
attribute [local semireducible] Rat.add Rat.sub Rat.mul Rat.inv

/-- A complex number: pair of rationals (real part, imaginary part). -/
abbrev Cq : Type := ℚ × ℚ

/-- Complex multiplication on `Cq`. -/
def cmul (a b : Cq) : Cq := (a.1 * b.1 - a.2 * b.2, a.1 * b.2 + a.2 * b.1)

/-- Complex reciprocal on `Cq`: `1 / (R + jX) = (R - jX) / (R^2 + X^2)`. -/
def cinv (z : Cq) : Cq :=
  let d := z.1 * z.1 + z.2 * z.2
  (z.1 / d, -z.2 / d)

/-- One branch record, as collected by the form:
`from` / `to` node numbers (1-based, `to = 0` means ground),
series resistance and reactance, and the imaginary part of the
shunt admittance Y/2.  Node numbers are integers (Python ints). -/
structure Branch where
  from_node : ℤ
  to_node : ℤ
  resistance : ℚ
  reactance : ℚ
  y_shunt_imag : ℚ
deriving DecidableEq, Repr

/-- The admittance matrix: an `n × n` grid of complex entries. -/
abbrev Mat (n : ℕ) : Type := Fin n → Fin n → Cq

/-- numpy integer indexing into an axis of length `n`:
an index `0 ≤ i < n` selects entry `i`; a negative index `-n ≤ i < 0`
wraps around to entry `n + i`; anything else raises an index error. -/
def npIdx (n : ℕ) (i : ℤ) : Option (Fin n) :=
  if h : 0 ≤ i ∧ i < (n : ℤ) then some ⟨i.toNat, by omega⟩
  else if h2 : -(n : ℤ) ≤ i ∧ i < 0 then some ⟨(i + n).toNat, by omega⟩
  else none

/-- Point update of a matrix entry: apply `f` at position `(a, b)`. -/
def upd {n : ℕ} (M : Mat n) (a b : Fin n) (f : Cq → Cq) : Mat n :=
  fun x y => if x = a ∧ y = b then f (M x y) else M x y

/-- Series admittance of a branch: `Y = 1 / Z if Z != 0 else 0`
with `Z = complex(resistance, reactance)` (line 28 of `app.py`). -/
def branchY (b : Branch) : Cq :=
  let Z : Cq := (b.resistance, b.reactance)
  if Z ≠ 0 then cinv Z else 0

/-- The series-stamping phase for one branch (lines 30–36 of `app.py`):
given the resolved 0-based indices `i` and (for a non-ground branch) `j`. -/
def seriesPhase {n : ℕ} (M : Mat n) (i : Fin n) (j : Option (Fin n)) (Y : Cq) : Mat n :=
  match j with
  | some j => upd (upd (upd (upd M i i (· + Y)) j j (· + Y)) i j (· - Y)) j i (· - Y)
  | none => upd M i i (· + Y)

/-- The shunt-stamping phase for one branch (lines 38–42 of `app.py`). -/
def shuntPhase {n : ℕ} (M : Mat n) (i : Fin n) (j : Option (Fin n)) (Ys : Cq) : Mat n :=
  match j with
  | some j => upd (upd M i i (· + Ys)) j j (· + Ys)
  | none => upd M i i (· + Ys)

/-- Processing of one branch inside the loop of `calculate_ybus`
(lines 24–42 of `app.py`): resolve `i = from - 1`, `j = to - 1` (or none
for ground), compute `Y` and the shunt term, stamp.  An out-of-range
numpy access raises, modelled as `Except.error`. -/
def stampBranch (n : ℕ) (b : Branch) (M : Mat n) : Except Unit (Mat n) :=
  let Y := branchY b
  let Ys : Cq := (0, b.y_shunt_imag)
  match npIdx n (b.from_node - 1) with
  | none => .error ()
  | some i =>
    if b.to_node = 0 then
      .ok (shuntPhase (seriesPhase M i none Y) i none Ys)
    else
      match npIdx n (b.to_node - 1) with
      | none => .error ()
      | some j => .ok (shuntPhase (seriesPhase M i (some j) Y) i (some j) Ys)

/-- `calculate_ybus` (lines 5–44 of `app.py`): start from the all-zero
complex matrix and stamp each branch in order. -/
def calculate_ybus (n : ℕ) (branches : List Branch) : Except Unit (Mat n) :=
  branches.foldlM (fun M b => stampBranch n b M) (fun _ _ => 0)

/-- The input contract of the builder: `from_node ∈ [1, n]`,
`to_node ∈ [0, n]`. -/
def validBranch (n : ℕ) (b : Branch) : Prop :=
  1 ≤ b.from_node ∧ b.from_node ≤ n ∧ 0 ≤ b.to_node ∧ b.to_node ≤ n

instance (n : ℕ) (b : Branch) : Decidable (validBranch n b) := by
  unfold validBranch; infer_instance

instance {ε α : Type _} [DecidableEq ε] [DecidableEq α] : DecidableEq (Except ε α) :=
  fun a b =>
    match a, b with
    | .error x, .error y =>
      if h : x = y then .isTrue (by rw [h])
      else .isFalse (by intro hc; cases hc; exact h rfl)
    | .ok x, .ok y =>
      if h : x = y then .isTrue (by rw [h])
      else .isFalse (by intro hc; cases hc; exact h rfl)
    | .error _, .ok _ => .isFalse (by intro hc; cases hc)
    | .ok _, .error _ => .isFalse (by intro hc; cases hc)

/-- Modelled from the spec (§4.1 steps 2–5, ground-capable variant), for
comparison with `calculate_ybus`: one branch's stamping, written as a
pointwise formula.  `Y = 1/(R + jX)` (`0` when `Z = 0` exactly); for a
branch between two real nodes `i = from-1`, `j = to-1`:
`M[i][i] += Y`, `M[j][j] += Y`, `M[i][j] -= Y`, `M[j][i] -= Y`;
for a branch to ground (`to = 0`): `M[i][i] += Y` only; the shunt
susceptance `jB` is added to `M[i][i]` always and to `M[j][j]` whenever
the far end is a real node.  Indices are compared as integers. -/
def specStamp (n : ℕ) (M : Mat n) (b : Branch) : Mat n :=
  fun x y =>
    let Y : Cq := if ((b.resistance, b.reactance) : Cq) = 0 then 0
      else cinv (b.resistance, b.reactance)
    let jB : Cq := (0, b.y_shunt_imag)
    let i : ℤ := b.from_node - 1
    let j : ℤ := b.to_node - 1
    let series : Cq :=
      if b.to_node ≠ 0 then
        (if (x : ℤ) = i ∧ (y : ℤ) = i then Y else 0)
          + (if (x : ℤ) = j ∧ (y : ℤ) = j then Y else 0)
          - (if (x : ℤ) = i ∧ (y : ℤ) = j then Y else 0)
          - (if (x : ℤ) = j ∧ (y : ℤ) = i then Y else 0)
      else
        (if (x : ℤ) = i ∧ (y : ℤ) = i then Y else 0)
    let shunt : Cq :=
      (if (x : ℤ) = i ∧ (y : ℤ) = i then jB else 0)
        + (if b.to_node ≠ 0 then (if (x : ℤ) = j ∧ (y : ℤ) = j then jB else 0) else 0)
    M x y + series + shunt

/-- The net contribution of one branch to entry `(x, y)`:
`specStamp` applied to the all-zero matrix. -/
def branchContrib (n : ℕ) (b : Branch) (x y : Fin n) : Cq :=
  specStamp n (fun _ _ => 0) b x y

/-- Sum of one row of the matrix (diagonal plus all off-diagonal entries). -/
def rowSum {n : ℕ} (M : Mat n) (k : Fin n) : Cq := ∑ y, M k y

/-- The validation loop of `main` (lines 84–92 of `app.py`): `valid`
starts `True`; each branch with `from == to != 0` or with `from == 0`
sets it to `False`. -/
def validateLoop (bs : List Branch) : Bool :=
  bs.foldl
    (fun valid b =>
      let valid := if b.from_node = b.to_node ∧ b.to_node ≠ 0 then false else valid
      if b.from_node = 0 then false else valid)
    true

/-- The submission handler (lines 83–95 of `app.py`): run the validation
loop; only when it passes is `calculate_ybus` invoked, otherwise no
matrix of any kind is produced. -/
def runSubmission (n : ℕ) (bs : List Branch) : Option (Except Unit (Mat n)) :=
  if validateLoop bs then some (calculate_ybus n bs) else none

/-! ### The complex formatter

Python floats are modelled as exact rationals, except that IEEE 754
negative zero is kept as a separate value `PFloat.negZero` (it compares
equal to `0` but prints with a `-` sign).  `"%.5f"` formatting is
modelled as sign + magnitude rounded to 5 decimal places with
round-half-to-even, rendered in fixed-point notation. -/

/-- A Python float: an exact rational, or IEEE negative zero. -/
inductive PFloat where
  | num (q : ℚ)
  | negZero
deriving DecidableEq, Repr

/-- Numeric value of a `PFloat` (negative zero compares as `0`). -/
def PFloat.toRat : PFloat → ℚ
  | num q => q
  | negZero => 0

/-- Whether the sign bit is set: true for negative numbers and for `-0.0`. -/
def PFloat.negSign : PFloat → Bool
  | num q => decide (q < 0)
  | negZero => true

/-- Python `abs` on floats (`abs(-0.0) = 0.0`). -/
def PFloat.abs : PFloat → PFloat
  | num q => num (if q < 0 then -q else q)
  | negZero => num 0

/-- A Python complex number. -/
structure PComplex where
  re : PFloat
  im : PFloat

/-- The character for decimal digit `k % 10`. -/
def digitChar (k : ℕ) : Char := Char.ofNat (48 + k % 10)

/-- Decimal digit characters of a natural number, most significant first
(the first argument is fuel; any fuel `> log10 n` suffices). -/
def natCharsAux : ℕ → ℕ → List Char
  | 0, _ => []
  | f + 1, n =>
    if n < 10 then [digitChar n]
    else natCharsAux f (n / 10) ++ [digitChar n]

/-- Decimal rendering of a natural number. -/
def intStr (n : ℕ) : String := String.mk (natCharsAux (n + 1) n)

/-- The five fractional digit characters for `m % 100000`, zero padded. -/
def fracStr (m : ℕ) : String :=
  String.mk [digitChar (m / 10000), digitChar (m / 1000), digitChar (m / 100),
    digitChar (m / 10), digitChar m]

/-- Floor of a nonnegative rational as an integer. -/
def ratFloor (q : ℚ) : ℤ := q.num / q.den

/-- Absolute value of a rational. -/
def ratAbs (q : ℚ) : ℚ := if q < 0 then -q else q

/-- Round a nonnegative rational to the nearest natural number,
ties to even. -/
def rhe (q : ℚ) : ℕ :=
  let n := ratFloor q
  let r := q - (n : ℚ)
  if r < 1 / 2 then n.toNat
  else if 1 / 2 < r then (n + 1).toNat
  else if n % 2 = 0 then n.toNat else (n + 1).toNat

/-- Python `f"{x:.5f}"`: sign, then the magnitude rounded to five decimal
places, written in fixed point with exactly five fractional digits. -/
def fmt5 (x : PFloat) : String :=
  let m := rhe (ratAbs x.toRat * 100000)
  (if x.negSign then "-" else "") ++ intStr (m / 100000) ++ "." ++ fracStr (m % 100000)

/-- `format_complex` (lines 46–51 of `app.py`): real part, then `" + "`
and the imaginary part when `z.imag >= 0`, else `" - "` and the absolute
value of the imaginary part, with a trailing `"j"`. -/
def format_complex (z : PComplex) : String :=
  if 0 ≤ z.im.toRat then fmt5 z.re ++ " + " ++ fmt5 z.im ++ "j"
  else fmt5 z.re ++ " - " ++ fmt5 z.im.abs ++ "j"

/-! ### Helper lemmas -/

theorem upd_apply {n : ℕ} (M : Mat n) (a b : Fin n) (f : Cq → Cq) (x y : Fin n) :
    upd M a b f x y = if x = a ∧ y = b then f (M x y) else M x y := rfl

theorem stampApply_some {n : ℕ} (M : Mat n) (i j : Fin n) (Y Ys : Cq) (x y : Fin n) :
    shuntPhase (seriesPhase M i (some j) Y) i (some j) Ys x y
      = M x y + (if x = i ∧ y = i then Y else 0) + (if x = j ∧ y = j then Y else 0)
        - (if x = i ∧ y = j then Y else 0) - (if x = j ∧ y = i then Y else 0)
        + (if x = i ∧ y = i then Ys else 0) + (if x = j ∧ y = j then Ys else 0) := by
  simp only [shuntPhase, seriesPhase, upd]
  split_ifs <;> ring

theorem stampApply_none {n : ℕ} (M : Mat n) (i : Fin n) (Y Ys : Cq) (x y : Fin n) :
    shuntPhase (seriesPhase M i none Y) i none Ys x y
      = M x y + (if x = i ∧ y = i then Y else 0) + (if x = i ∧ y = i then Ys else 0) := by
  simp only [shuntPhase, seriesPhase, upd]
  split_ifs <;> ring

theorem npIdx_nonneg {n : ℕ} {i : ℤ} (h1 : 0 ≤ i) (h2 : i < (n : ℤ)) :
    ∃ a : Fin n, npIdx n i = some a ∧ (a : ℤ) = i := by
  refine ⟨⟨i.toNat, by omega⟩, ?_, by simp; omega⟩
  unfold npIdx
  rw [dif_pos ⟨h1, h2⟩]

theorem npIdx_neg {n : ℕ} {i : ℤ} (h1 : -(n : ℤ) ≤ i) (h2 : i < 0) :
    ∃ a : Fin n, npIdx n i = some a ∧ (a : ℤ) = i + n := by
  refine ⟨⟨(i + n).toNat, by omega⟩, ?_, by simp; omega⟩
  unfold npIdx
  rw [dif_neg (by omega), dif_pos ⟨h1, h2⟩]

theorem npIdx_none {n : ℕ} {i : ℤ} (h : i < -(n : ℤ) ∨ (n : ℤ) ≤ i) :
    npIdx n i = none := by
  unfold npIdx
  rw [dif_neg (by omega), dif_neg (by omega)]

theorem finCast_iff {n : ℕ} {i : Fin n} {c : ℤ} (h : (i : ℤ) = c) (x : Fin n) :
    ((x : ℤ) = c) ↔ x = i := by
  subst h
  constructor
  · intro hx
    exact Fin.ext (by exact_mod_cast hx)
  · rintro rfl; rfl

theorem branchY_ite (b : Branch) :
    branchY b = if ((b.resistance, b.reactance) : Cq) = 0 then 0
      else cinv (b.resistance, b.reactance) := by
  by_cases h : ((b.resistance, b.reactance) : Cq) = 0 <;> simp [branchY, h]

theorem stampBranch_eq_specStamp {n : ℕ} (b : Branch) (M : Mat n)
    (hv : validBranch n b) : stampBranch n b M = .ok (specStamp n M b) := by
  obtain ⟨h1, h2, h3, h4⟩ := hv
  obtain ⟨i, hi, hiv⟩ := npIdx_nonneg (n := n) (i := b.from_node - 1) (by omega) (by omega)
  by_cases h0 : b.to_node = 0
  · have hred : stampBranch n b M
        = .ok (shuntPhase (seriesPhase M i none (branchY b)) i none (0, b.y_shunt_imag)) := by
      simp only [stampBranch, hi]
      rw [if_pos h0]
    rw [hred]
    congr 1
    funext x y
    rw [stampApply_none]
    simp only [specStamp, h0, branchY_ite, finCast_iff hiv]
    norm_num
  · obtain ⟨j, hj, hjv⟩ := npIdx_nonneg (n := n) (i := b.to_node - 1) (by omega) (by omega)
    have hred : stampBranch n b M
        = .ok (shuntPhase (seriesPhase M i (some j) (branchY b)) i (some j)
            (0, b.y_shunt_imag)) := by
      simp only [stampBranch, hi]
      rw [if_neg h0]
      simp only [hj]
    rw [hred]
    congr 1
    funext x y
    rw [stampApply_some]
    simp only [specStamp, branchY_ite, finCast_iff hiv, finCast_iff hjv, ne_eq, if_pos h0]
    ring

theorem foldlM_stamp_ok {n : ℕ} (bs : List Branch) (M : Mat n)
    (hv : ∀ b ∈ bs, validBranch n b) :
    bs.foldlM (fun M b => stampBranch n b M) M = .ok (bs.foldl (specStamp n) M) := by
  induction bs generalizing M with
  | nil => rfl
  | cons b bs ih =>
    rw [List.foldl_cons, List.foldlM_cons,
      stampBranch_eq_specStamp b M (hv b (List.mem_cons_self b bs))]
    exact ih (specStamp n M b) (fun x hx => hv x (List.mem_cons_of_mem _ hx))

theorem calculate_ybus_spec {n : ℕ} (bs : List Branch)
    (hv : ∀ b ∈ bs, validBranch n b) :
    calculate_ybus n bs = .ok (bs.foldl (specStamp n) (fun _ _ => 0)) :=
  foldlM_stamp_ok bs _ hv

theorem specStamp_contrib {n : ℕ} (M : Mat n) (b : Branch) (x y : Fin n) :
    specStamp n M b x y = M x y + branchContrib n b x y := by
  simp only [branchContrib, specStamp]
  ring

theorem foldl_specStamp_apply {n : ℕ} (bs : List Branch) (M : Mat n) (x y : Fin n) :
    bs.foldl (specStamp n) M x y
      = M x y + ((bs.map fun b => branchContrib n b x y).sum) := by
  induction bs generalizing M with
  | nil => simp
  | cons b bs ih =>
    rw [List.foldl_cons, ih, specStamp_contrib]
    simp [add_assoc]

theorem stampBranch_ok_symm {n : ℕ} {b : Branch} {M M' : Mat n}
    (h : stampBranch n b M = .ok M') (hM : ∀ x y, M x y = M y x) :
    ∀ x y, M' x y = M' y x := by
  cases hni : npIdx n (b.from_node - 1) with
  | none => simp [stampBranch, hni] at h
  | some i =>
    by_cases h0 : b.to_node = 0
    · have h' : shuntPhase (seriesPhase M i none (branchY b)) i none (0, b.y_shunt_imag)
          = M' := by
        have := h
        simp only [stampBranch, hni, if_pos h0, Except.ok.injEq] at this
        exact this
      intro x y
      rw [← h', stampApply_none, stampApply_none, hM x y]
      by_cases hx : x = i <;> by_cases hy : y = i <;> simp [hx, hy]
    · cases hnj : npIdx n (b.to_node - 1) with
      | none => simp [stampBranch, hni, if_neg h0, hnj] at h
      | some j =>
        have h' : shuntPhase (seriesPhase M i (some j) (branchY b)) i (some j)
            (0, b.y_shunt_imag) = M' := by
          have := h
          simp only [stampBranch, hni, if_neg h0, hnj, Except.ok.injEq] at this
          exact this
        intro x y
        rw [← h', stampApply_some, stampApply_some, hM x y]
        by_cases hxi : x = i <;> by_cases hyi : y = i <;> by_cases hxj : x = j <;>
          by_cases hyj : y = j <;> simp [hxi, hyi, hxj, hyj, and_comm, eq_comm] <;> ring

theorem foldlM_ok_symm {n : ℕ} (bs : List Branch) (M Mfin : Mat n)
    (h : bs.foldlM (fun M b => stampBranch n b M) M = .ok Mfin)
    (hM : ∀ x y, M x y = M y x) : ∀ x y, Mfin x y = Mfin y x := by
  induction bs generalizing M with
  | nil =>
    have : M = Mfin := Except.ok.inj h
    exact this ▸ hM
  | cons b bs ih =>
    rw [List.foldlM_cons] at h
    cases hs : stampBranch n b M with
    | error e => rw [hs] at h; exact Except.noConfusion h
    | ok M1 =>
      rw [hs] at h
      exact ih M1 h (stampBranch_ok_symm hs hM)

theorem rowSum_contrib_zero {n : ℕ} (b : Branch) (k : Fin n) (hv : validBranch n b)
    (hs : b.y_shunt_imag = 0) (hg : ¬(b.from_node = (k : ℤ) + 1 ∧ b.to_node = 0)) :
    ∑ y, branchContrib n b k y = 0 := by
  obtain ⟨h1, h2, h3, h4⟩ := hv
  obtain ⟨i, hi, hiv⟩ := npIdx_nonneg (n := n) (i := b.from_node - 1) (by omega) (by omega)
  by_cases h0 : b.to_node = 0
  · have hki : ¬((k : ℤ) = b.from_node - 1) := by omega
    simp [branchContrib, specStamp, h0, hki, hs, Prod.ext_iff]
  · obtain ⟨j, hj, hjv⟩ := npIdx_nonneg (n := n) (i := b.to_node - 1) (by omega) (by omega)
    simp only [branchContrib, specStamp, finCast_iff hiv, finCast_iff hjv, ne_eq,
      if_pos h0, hs, zero_add, ite_and]
    have hthen : (((0 : ℚ), (0 : ℚ)) : Cq) = 0 := rfl
    simp only [hthen, ite_self, add_zero]
    simp only [Finset.sum_sub_distrib, Finset.sum_add_distrib]
    by_cases hki : k = i <;> by_cases hkj : k = j <;>
      simp [hki, hkj, Finset.sum_ite_eq', Finset.sum_ite_eq]

theorem rowSum_foldl {n : ℕ} (bs : List Branch) (M : Mat n) (k : Fin n)
    (hv : ∀ b ∈ bs, validBranch n b) (hs : ∀ b ∈ bs, b.y_shunt_imag = 0)
    (hg : ∀ b ∈ bs, ¬(b.from_node = (k : ℤ) + 1 ∧ b.to_node = 0)) :
    rowSum (bs.foldl (specStamp n) M) k = rowSum M k := by
  induction bs generalizing M with
  | nil => rfl
  | cons b bs ih =>
    rw [List.foldl_cons, ih _ (fun x hx => hv x (List.mem_cons_of_mem _ hx))
      (fun x hx => hs x (List.mem_cons_of_mem _ hx))
      (fun x hx => hg x (List.mem_cons_of_mem _ hx))]
    unfold rowSum
    have : ∀ y, specStamp n M b k y = M k y + branchContrib n b k y :=
      fun y => specStamp_contrib M b k y
    simp only [this]
    rw [Finset.sum_add_distrib,
      rowSum_contrib_zero b k (hv b (List.mem_cons_self b bs))
        (hs b (List.mem_cons_self b bs)) (hg b (List.mem_cons_self b bs)), add_zero]

theorem npIdx_some_range {n : ℕ} {i : ℤ} {a : Fin n} (h : npIdx n i = some a) :
    -(n : ℤ) ≤ i ∧ i < n := by
  unfold npIdx at h
  split_ifs at h with h1 h2
  · omega
  · omega

theorem stampBranch_err {n : ℕ} {b : Branch}
    (hbad : b.from_node - 1 < -(n : ℤ) ∨ (n : ℤ) ≤ b.from_node - 1 ∨
      (b.to_node ≠ 0 ∧ (b.to_node - 1 < -(n : ℤ) ∨ (n : ℤ) ≤ b.to_node - 1)))
    (M : Mat n) : stampBranch n b M = .error () := by
  cases hni : npIdx n (b.from_node - 1) with
  | none => simp [stampBranch, hni]
  | some i =>
    have hrange := npIdx_some_range hni
    have hto : b.to_node ≠ 0 ∧ (b.to_node - 1 < -(n : ℤ) ∨ (n : ℤ) ≤ b.to_node - 1) := by
      rcases hbad with h | h | h
      · omega
      · omega
      · exact h
    simp [stampBranch, hni, if_neg hto.1, npIdx_none hto.2]

theorem foldlM_err {n : ℕ} (bs : List Branch) (b : Branch) (hb : b ∈ bs)
    (herr : ∀ M : Mat n, stampBranch n b M = .error ()) :
    ∀ M : Mat n, bs.foldlM (fun M b => stampBranch n b M) M = .error () := by
  induction bs with
  | nil => cases hb
  | cons a bs ih =>
    intro M
    rw [List.foldlM_cons]
    rcases List.mem_cons.mp hb with rfl | hmem
    · rw [herr M]; rfl
    · cases hs : stampBranch n a M with
      | error e => cases e; rfl
      | ok M1 => exact ih hmem M1

theorem branchY_congr_from (b : Branch) (z : ℤ) :
    branchY { b with from_node := z } = branchY b := rfl

theorem stampBranch_wrap_from {n : ℕ} (b : Branch) (M : Mat n)
    (hl : 1 - (n : ℤ) ≤ b.from_node) (hr : b.from_node ≤ 0) :
    stampBranch n b M = stampBranch n { b with from_node := b.from_node + n } M := by
  obtain ⟨i, hi, hiv⟩ := npIdx_neg (n := n) (i := b.from_node - 1) (by omega) (by omega)
  obtain ⟨i', hi', hiv'⟩ :=
    npIdx_nonneg (n := n) (i := b.from_node + n - 1) (by omega) (by omega)
  have hii : i = i' := Fin.ext (by omega)
  simp only [stampBranch, hi, hi', hii, branchY_congr_from]

theorem stampBranch_wrap_to {n : ℕ} (b : Branch) (M : Mat n)
    (hl : 1 - (n : ℤ) ≤ b.to_node) (hr : b.to_node ≤ -1) :
    stampBranch n b M = stampBranch n { b with to_node := b.to_node + n } M := by
  obtain ⟨j, hj, hjv⟩ := npIdx_neg (n := n) (i := b.to_node - 1) (by omega) (by omega)
  obtain ⟨j', hj', hjv'⟩ :=
    npIdx_nonneg (n := n) (i := b.to_node + n - 1) (by omega) (by omega)
  have hjj : j = j' := Fin.ext (by omega)
  have ht : b.to_node ≠ 0 := by omega
  have ht' : b.to_node + n ≠ 0 := by omega
  simp only [stampBranch, if_neg ht, if_neg ht', hj, hj', hjj]
  cases npIdx n (b.from_node - 1) <;> rfl

theorem validateStep_false (b : Branch) :
    (let v := if b.from_node = b.to_node ∧ b.to_node ≠ 0 then false else false
     if b.from_node = 0 then false else v) = false := by
  by_cases h1 : b.from_node = b.to_node ∧ b.to_node ≠ 0 <;>
    by_cases h2 : b.from_node = 0 <;> simp [h1, h2]

theorem validateLoop_false (bs : List Branch) :
    bs.foldl
      (fun valid b =>
        let valid := if b.from_node = b.to_node ∧ b.to_node ≠ 0 then false else valid
        if b.from_node = 0 then false else valid)
      false = false := by
  induction bs with
  | nil => rfl
  | cons b bs ih =>
    rw [List.foldl_cons]
    have := validateStep_false b
    simp only at this
    rw [this, ih]

theorem validateLoop_iff (bs : List Branch) :
    validateLoop bs = true
      ↔ ∀ b ∈ bs, b.from_node ≠ 0 ∧ (b.from_node = b.to_node → b.to_node = 0) := by
  induction bs with
  | nil => simp [validateLoop]
  | cons b bs ih =>
    by_cases hbad : (b.from_node = b.to_node ∧ b.to_node ≠ 0) ∨ b.from_node = 0
    · have hfalse : validateLoop (b :: bs) = false := by
        unfold validateLoop
        rw [List.foldl_cons]
        have hstep :
            (let v := if b.from_node = b.to_node ∧ b.to_node ≠ 0 then false else true
             if b.from_node = 0 then false else v) = false := by
          rcases hbad with h | h
          · by_cases h2 : b.from_node = 0 <;> simp [h, h2]
          · simp [h]
        rw [hstep, validateLoop_false]
      constructor
      · intro h
        rw [hfalse] at h
        exact absurd h (by decide)
      · intro hall
        have hb' := hall b (List.mem_cons_self b bs)
        rcases hbad with h | h
        · exact absurd (hb'.2 h.1) h.2
        · exact absurd h hb'.1
    · push_neg at hbad
      have hgood : validateLoop (b :: bs) = validateLoop bs := by
        unfold validateLoop
        rw [List.foldl_cons]
        have hstep :
            (let v := if b.from_node = b.to_node ∧ b.to_node ≠ 0 then false else true
             if b.from_node = 0 then false else v) = true := by
          have hA : ¬(b.from_node = b.to_node ∧ b.to_node ≠ 0) := fun hc => hc.2 (hbad.1 hc.1)
          simp only [if_neg hA, if_neg hbad.2]
        rw [hstep]
      rw [hgood, ih]
      constructor
      · intro hall
        intro x hx
        rcases List.mem_cons.mp hx with rfl | hmem
        · exact ⟨hbad.2, hbad.1⟩
        · exact hall x hmem
      · intro hall x hx
        exact hall x (List.mem_cons_of_mem _ hx)

theorem string_data_append (s t : String) : (s ++ t).data = s.data ++ t.data := by
  cases s; cases t; rfl

theorem digitChar_isDigit (k : ℕ) : (digitChar k).isDigit = true := by
  unfold digitChar
  have h : k % 10 < 10 := Nat.mod_lt _ (by norm_num)
  generalize k % 10 = m at h ⊢
  interval_cases m <;> decide

theorem isDigit_ne_dot {c : Char} (h : c.isDigit = true) : c ≠ '.' := by
  intro he
  subst he
  exact absurd h (by decide)

theorem isDigit_ne_dash {c : Char} (h : c.isDigit = true) : c ≠ '-' := by
  intro he
  subst he
  exact absurd h (by decide)

theorem natCharsAux_digit (f n : ℕ) : ∀ c ∈ natCharsAux f n, c.isDigit = true := by
  induction f generalizing n with
  | zero => intro c hc; cases hc
  | succ f ih =>
    intro c hc
    unfold natCharsAux at hc
    by_cases h : n < 10
    · rw [if_pos h] at hc
      rw [List.mem_singleton.mp hc]
      exact digitChar_isDigit n
    · rw [if_neg h] at hc
      rcases List.mem_append.mp hc with hm | hm
      · exact ih (n / 10) c hm
      · rw [List.mem_singleton.mp hm]
        exact digitChar_isDigit n

theorem fracStr_length (m : ℕ) : (fracStr m).length = 5 := rfl

theorem fracStr_digit (m : ℕ) : ∀ c ∈ (fracStr m).toList, c.isDigit = true := by
  intro c hc
  have hc' : c ∈ [digitChar (m / 10000), digitChar (m / 1000), digitChar (m / 100),
      digitChar (m / 10), digitChar m] := hc
  simp only [List.mem_cons, List.not_mem_nil, or_false] at hc'
  rcases hc' with rfl | rfl | rfl | rfl | rfl <;> exact digitChar_isDigit _

theorem fmt5_shape (x : PFloat) :
    ∃ pre frac : String, fmt5 x = pre ++ "." ++ frac ∧ frac.length = 5 ∧
      (∀ c ∈ frac.toList, c.isDigit = true) ∧ ∀ c ∈ pre.toList, c ≠ '.' := by
  refine ⟨(if x.negSign then "-" else "")
      ++ intStr (rhe (ratAbs x.toRat * 100000) / 100000),
    fracStr (rhe (ratAbs x.toRat * 100000) % 100000), rfl, fracStr_length _,
    fracStr_digit _, ?_⟩
  intro c hc
  rw [show ∀ s : String, s.toList = s.data from fun _ => rfl, string_data_append] at hc
  rcases List.mem_append.mp hc with hm | hm
  · cases hsg : x.negSign <;> rw [hsg] at hm
    · cases hm
    · have hm' : c ∈ ['-'] := hm
      rw [List.mem_singleton.mp hm']
      decide
  · exact isDigit_ne_dot (natCharsAux_digit _ _ c hm)

/-! ### Claims -/

/-- C1: for every valid input (`from_node ∈ [1, n]`, `to_node ∈ [0, n]`),
`calculate_ybus` starts from the all-zero `n × n` complex matrix and, for
each branch, applies exactly the spec's stamping rule (`specStamp`):
between two real nodes it adds `Y` to `M[i][i]` and `M[j][j]` and
subtracts `Y` from `M[i][j]` and `M[j][i]`; for a ground branch it adds
`Y` to `M[i][i]` only, touching no off-diagonal entry. -/
theorem claim_C1 {n : ℕ} (bs : List Branch) (hv : ∀ b ∈ bs, validBranch n b) :
    calculate_ybus n bs = .ok (bs.foldl (specStamp n) (fun _ _ => 0)) :=
  calculate_ybus_spec bs hv

theorem claim_C1_witness :
    calculate_ybus 2 [⟨1, 0, 0, 1, 0⟩]
      = .ok ([⟨1, 0, 0, 1, 0⟩].foldl (specStamp 2) (fun _ _ => 0)) :=
  claim_C1 [⟨1, 0, 0, 1, 0⟩] (by decide)

/-- C2: relative to the same branch with zero shunt, the shunt
susceptance `jB` is added to the from-node diagonal always, and to the
to-node diagonal exactly when the branch has a real far-end node
(`to_node ≠ 0`); no off-diagonal entry is changed by shunt stamping. -/
theorem claim_C2 {n : ℕ} (b : Branch) (M : Mat n) (hv : validBranch n b)
    (hsl : b.to_node = 0 ∨ b.from_node ≠ b.to_node) :
    ∃ M0 Mfull : Mat n,
      stampBranch n { b with y_shunt_imag := 0 } M = .ok M0 ∧
      stampBranch n b M = .ok Mfull ∧
      ∀ x y : Fin n,
        Mfull x y = M0 x y +
          (if x = y ∧ ((x : ℤ) = b.from_node - 1
              ∨ ((x : ℤ) = b.to_node - 1 ∧ b.to_node ≠ 0))
            then ((0 : ℚ), b.y_shunt_imag) else 0) := by
  have hv0 : validBranch n { b with y_shunt_imag := 0 } := hv
  refine ⟨specStamp n M { b with y_shunt_imag := 0 }, specStamp n M b,
    stampBranch_eq_specStamp _ _ hv0, stampBranch_eq_specStamp _ _ hv, ?_⟩
  intro x y
  have e1 : ({ b with y_shunt_imag := 0 } : Branch).from_node = b.from_node := rfl
  have e2 : ({ b with y_shunt_imag := 0 } : Branch).to_node = b.to_node := rfl
  have e3 : ({ b with y_shunt_imag := 0 } : Branch).resistance = b.resistance := rfl
  have e4 : ({ b with y_shunt_imag := 0 } : Branch).reactance = b.reactance := rfl
  have e5 : ({ b with y_shunt_imag := 0 } : Branch).y_shunt_imag = 0 := rfl
  have hz : (((0 : ℚ), (0 : ℚ)) : Cq) = 0 := rfl
  have hfin : ∀ u v : Fin n, (u = v) ↔ ((u : ℕ) = (v : ℕ)) :=
    fun u v => ⟨fun h => by rw [h], fun h => Fin.ext h⟩
  simp only [specStamp, e1, e2, e3, e4, e5, hz, hfin]
  split_ifs <;> first | (exfalso; omega) | ring1

theorem claim_C2_witness :
    ∃ M0 Mfull : Mat 2,
      stampBranch 2 { (⟨1, 2, 0, 1, 5⟩ : Branch) with y_shunt_imag := 0 }
          (fun _ _ => 0) = .ok M0 ∧
      stampBranch 2 (⟨1, 2, 0, 1, 5⟩ : Branch) (fun _ _ => 0) = .ok Mfull ∧
      ∀ x y : Fin 2,
        Mfull x y = M0 x y +
          (if x = y ∧ ((x : ℤ) = (⟨1, 2, 0, 1, 5⟩ : Branch).from_node - 1
              ∨ ((x : ℤ) = (⟨1, 2, 0, 1, 5⟩ : Branch).to_node - 1
                  ∧ (⟨1, 2, 0, 1, 5⟩ : Branch).to_node ≠ 0))
            then ((0 : ℚ), (⟨1, 2, 0, 1, 5⟩ : Branch).y_shunt_imag) else 0) :=
  claim_C2 ⟨1, 2, 0, 1, 5⟩ (fun _ _ => 0) (by decide) (Or.inr (by decide))

/-- C3: the series admittance is `Y = 1/(R + jX)` (a true complex
reciprocal) whenever `R + jX ≠ 0`, and is defined to be `0` when
`R + jX = 0` exactly; a zero-impedance branch raises no error and, with
zero shunt, contributes nothing at all to the matrix. -/
theorem claim_C3 :
    (∀ b : Branch, ((b.resistance, b.reactance) : Cq) ≠ 0 →
        cmul (branchY b) (b.resistance, b.reactance) = (1, 0))
    ∧ (∀ b : Branch, ((b.resistance, b.reactance) : Cq) = 0 → branchY b = 0)
    ∧ (∀ (n : ℕ) (b : Branch) (M : Mat n), validBranch n b →
        b.resistance = 0 → b.reactance = 0 →
        ∃ M' : Mat n, stampBranch n b M = .ok M')
    ∧ (∀ (n : ℕ) (b : Branch) (M : Mat n), validBranch n b →
        b.resistance = 0 → b.reactance = 0 → b.y_shunt_imag = 0 →
        stampBranch n b M = .ok M) := by
  refine ⟨?_, ?_, ?_, ?_⟩
  · intro b h
    have hRX : b.resistance ≠ 0 ∨ b.reactance ≠ 0 := by
      by_contra hc
      push_neg at hc
      exact h (by simp [Prod.ext_iff, hc.1, hc.2])
    have hd : b.resistance * b.resistance + b.reactance * b.reactance ≠ 0 := by
      rcases hRX with hR | hX
      · have h1 : 0 < b.resistance * b.resistance := mul_self_pos.mpr hR
        have h2 : 0 ≤ b.reactance * b.reactance := mul_self_nonneg _
        positivity
      · have h1 : 0 < b.reactance * b.reactance := mul_self_pos.mpr hX
        have h2 : 0 ≤ b.resistance * b.resistance := mul_self_nonneg _
        positivity
    unfold branchY cinv cmul
    rw [if_pos h]
    simp only [Prod.ext_iff, Prod.fst, Prod.snd]
    constructor
    · field_simp
    · field_simp
      ring
  · intro b h
    unfold branchY
    rw [if_neg (by simpa using h)]
  · intro n b M hv _ _
    exact ⟨_, stampBranch_eq_specStamp _ _ hv⟩
  · intro n b M hv hR hX hB
    rw [stampBranch_eq_specStamp _ _ hv]
    congr 1
    funext x y
    have hz : (((0 : ℚ), (0 : ℚ)) : Cq) = 0 := rfl
    simp [specStamp, hR, hX, hB, hz]

theorem claim_C3_witness :
    cmul (branchY ⟨1, 2, 3, 4, 0⟩)
        ((⟨1, 2, 3, 4, 0⟩ : Branch).resistance, (⟨1, 2, 3, 4, 0⟩ : Branch).reactance)
      = (1, 0)
    ∧ branchY ⟨1, 2, 0, 0, 7⟩ = 0
    ∧ stampBranch 2 ⟨1, 0, 0, 0, 0⟩ (fun _ _ => 0) = .ok (fun _ _ => 0) :=
  ⟨claim_C3.1 ⟨1, 2, 3, 4, 0⟩ (by decide),
   claim_C3.2.1 ⟨1, 2, 0, 0, 7⟩ (by decide),
   claim_C3.2.2.2 2 ⟨1, 0, 0, 0, 0⟩ (fun _ _ => 0) (by decide) rfl rfl rfl⟩

/-- C4: `format_complex` renders the real part then `" + "` and the
imaginary part when the imaginary part is `≥ 0`, or `" - "` and the
absolute value of the imaginary part when it is `< 0`, with a trailing
`"j"`; `fmt5` always produces fixed-point output with exactly five
fractional digits; and `format(complex(1.23456, -7.89123))` is
`"1.23456 - 7.89123j"`. -/
theorem claim_C4 :
    (∀ z : PComplex, 0 ≤ z.im.toRat →
        format_complex z = fmt5 z.re ++ " + " ++ fmt5 z.im ++ "j")
    ∧ (∀ z : PComplex, z.im.toRat < 0 →
        format_complex z = fmt5 z.re ++ " - " ++ fmt5 z.im.abs ++ "j")
    ∧ (∀ x : PFloat, ∃ pre frac : String, fmt5 x = pre ++ "." ++ frac ∧
        frac.length = 5 ∧ (∀ c ∈ frac.toList, c.isDigit = true) ∧
        ∀ c ∈ pre.toList, c ≠ '.')
    ∧ format_complex ⟨.num (123456 / 100000), .num (-(789123 / 100000))⟩
        = "1.23456 - 7.89123j" := by
  refine ⟨?_, ?_, fmt5_shape, by decide⟩
  · intro z h
    unfold format_complex
    rw [if_pos h]
  · intro z h
    unfold format_complex
    rw [if_neg (not_le.mpr h)]

theorem claim_C4_witness :
    format_complex ⟨.num 1, .num 2⟩ = fmt5 (.num 1) ++ " + " ++ fmt5 (.num 2) ++ "j"
    ∧ format_complex ⟨.num 1, .num (-2)⟩
        = fmt5 (.num 1) ++ " - " ++ fmt5 (PFloat.num (-2)).abs ++ "j" :=
  ⟨claim_C4.1 ⟨.num 1, .num 2⟩ (by decide), claim_C4.2.1 ⟨.num 1, .num (-2)⟩ (by decide)⟩

/-- C5: the builder is invoked if and only if no submitted branch has
`from_node = 0` and none has `from_node = to_node` with `to_node ≠ 0`;
when some branch violates either check, no matrix of any kind is
produced. -/
theorem claim_C5 (n : ℕ) (bs : List Branch) :
    (validateLoop bs = true
        ↔ ∀ b ∈ bs, b.from_node ≠ 0 ∧ (b.from_node = b.to_node → b.to_node = 0))
    ∧ (validateLoop bs = true → runSubmission n bs = some (calculate_ybus n bs))
    ∧ (validateLoop bs = false → runSubmission n bs = none) := by
  refine ⟨validateLoop_iff bs, fun h => ?_, fun h => ?_⟩
  · unfold runSubmission
    rw [if_pos h]
  · unfold runSubmission
    rw [if_neg (by simp [h])]

theorem claim_C5_witness :
    runSubmission 2 [⟨0, 1, 0, 1, 0⟩] = (none : Option (Except Unit (Mat 2))) :=
  (claim_C5 2 [⟨0, 1, 0, 1, 0⟩]).2.2 (by decide)

/-- C6: any matrix returned by `calculate_ybus` is symmetric:
`M[x][y] = M[y][x]` for all indices. -/
theorem claim_C6 {n : ℕ} (bs : List Branch) (M : Mat n)
    (h : calculate_ybus n bs = .ok M) : ∀ x y : Fin n, M x y = M y x :=
  foldlM_ok_symm bs _ M h (fun _ _ => rfl)

theorem claim_C6_witness :
    (fun x y : Fin 2 => if x = y then ((0 : ℚ), (-1 : ℚ)) else (0, 1)) 0 1
      = (fun x y : Fin 2 => if x = y then ((0 : ℚ), (-1 : ℚ)) else (0, 1)) 1 0 :=
  claim_C6 [⟨1, 2, 0, 1, 0⟩]
    (fun x y : Fin 2 => if x = y then ((0 : ℚ), (-1 : ℚ)) else (0, 1)) (by decide) 0 1

/-- C7: for valid input with all shunt susceptances zero, every row `k`
of the returned matrix belonging to a node with no ground branch sums
to zero (diagonal plus all off-diagonal entries). -/
theorem claim_C7 {n : ℕ} (bs : List Branch) (k : Fin n)
    (hv : ∀ b ∈ bs, validBranch n b) (hs : ∀ b ∈ bs, b.y_shunt_imag = 0)
    (hg : ∀ b ∈ bs, ¬(b.from_node = (k : ℤ) + 1 ∧ b.to_node = 0)) :
    ∃ M : Mat n, calculate_ybus n bs = .ok M ∧ rowSum M k = 0 := by
  refine ⟨_, calculate_ybus_spec bs hv, ?_⟩
  rw [rowSum_foldl bs _ k hv hs hg]
  simp [rowSum]

theorem claim_C7_witness :
    ∃ M : Mat 2, calculate_ybus 2 [⟨1, 2, 0, 1, 0⟩] = .ok M ∧ rowSum M 0 = 0 :=
  claim_C7 [⟨1, 2, 0, 1, 0⟩] 0 (by decide) (by decide) (by decide)

/-- C8: for valid input the result of `calculate_ybus` is invariant
under any permutation of the branch list. -/
theorem claim_C8 {n : ℕ} (bs bs' : List Branch)
    (hv : ∀ b ∈ bs, validBranch n b) (hp : bs.Perm bs') :
    calculate_ybus n bs = calculate_ybus n bs' := by
  have hv' : ∀ b ∈ bs', validBranch n b := fun b hb => hv b (hp.mem_iff.mpr hb)
  rw [calculate_ybus_spec bs hv, calculate_ybus_spec bs' hv']
  congr 1
  funext x y
  rw [foldl_specStamp_apply, foldl_specStamp_apply]
  congr 1
  exact List.Perm.sum_eq (hp.map _)

theorem claim_C8_witness :
    calculate_ybus 2 [⟨1, 2, 0, 1, 0⟩, ⟨1, 0, 1, 0, 0⟩]
      = calculate_ybus 2 [⟨1, 0, 1, 0, 0⟩, ⟨1, 2, 0, 1, 0⟩] :=
  claim_C8 _ _ (by decide) (List.Perm.swap _ _ _)

/-- C9 (amended): an access whose 0-based numpy index falls outside
`[-n, n)` fails loudly with an index error (the whole computation
returns an error); but a contract-violating node number whose 0-based
index lies in `[-n, -1]` silently wraps around numpy-style, behaving
exactly as the node number shifted up by `n`. -/
theorem claim_C9 :
    (∀ (n : ℕ) (bs : List Branch) (b : Branch), b ∈ bs →
        (b.from_node - 1 < -(n : ℤ) ∨ (n : ℤ) ≤ b.from_node - 1 ∨
          (b.to_node ≠ 0 ∧ (b.to_node - 1 < -(n : ℤ) ∨ (n : ℤ) ≤ b.to_node - 1))) →
        calculate_ybus n bs = .error ())
    ∧ (∀ (n : ℕ) (b : Branch) (M : Mat n), 1 - (n : ℤ) ≤ b.from_node →
        b.from_node ≤ 0 →
        stampBranch n b M = stampBranch n { b with from_node := b.from_node + n } M)
    ∧ (∀ (n : ℕ) (b : Branch) (M : Mat n), 1 - (n : ℤ) ≤ b.to_node →
        b.to_node ≤ -1 →
        stampBranch n b M = stampBranch n { b with to_node := b.to_node + n } M) := by
  refine ⟨?_, ?_, ?_⟩
  · intro n bs b hb hbad
    exact foldlM_err bs b hb (fun M => stampBranch_err hbad M) _
  · intro n b M h1 h2
    exact stampBranch_wrap_from b M h1 h2
  · intro n b M h1 h2
    exact stampBranch_wrap_to b M h1 h2

theorem claim_C9_counterexample :
    ¬ validBranch 2 ⟨0, 0, 0, 1, 0⟩
    ∧ (calculate_ybus 2 [⟨0, 0, 0, 1, 0⟩]).toOption.map (fun M => M 1 1)
        = some (0, -1) := by decide

theorem claim_C9_witness :
    calculate_ybus 2 [⟨5, 1, 0, 1, 0⟩] = .error () :=
  claim_C9.1 2 [⟨5, 1, 0, 1, 0⟩] ⟨5, 1, 0, 1, 0⟩ (List.mem_singleton.mpr rfl)
    (by decide)

/-- C10: when the imaginary part is IEEE negative zero, `format_complex`
takes the nonnegative branch (since `-0.0 >= 0`) and renders
`"<real> + -0.00000j"` — a plus sign followed by a negative-signed
imaginary field, a shape the plus branch never otherwise produces
(for an actual nonnegative value the imaginary field contains no `-`). -/
theorem claim_C10 :
    (∀ re : PFloat,
        format_complex ⟨re, .negZero⟩ = fmt5 re ++ " + " ++ "-0.00000" ++ "j")
    ∧ (∀ q : ℚ, 0 ≤ q → '-' ∉ (fmt5 (.num q)).toList) := by
  constructor
  · intro re
    unfold format_complex
    have hc : 0 ≤ ({ re := re, im := PFloat.negZero } : PComplex).im.toRat := le_refl 0
    rw [if_pos hc]
    show fmt5 re ++ " + " ++ fmt5 PFloat.negZero ++ "j" = _
    rw [show fmt5 PFloat.negZero = "-0.00000" from by decide]
  · intro q hq
    have hsign : (PFloat.num q).negSign = false := by
      simp [PFloat.negSign, not_lt.mpr hq]
    intro hmem
    unfold fmt5 at hmem
    rw [hsign] at hmem
    have hmem' : '-' ∈
        ((intStr (rhe (ratAbs (PFloat.num q).toRat * 100000) / 100000) ++ ".")
          ++ fracStr (rhe (ratAbs (PFloat.num q).toRat * 100000) % 100000)).data :=
      hmem
    rw [string_data_append] at hmem'
    rcases List.mem_append.mp hmem' with h | h
    · rw [string_data_append] at h
      rcases List.mem_append.mp h with h2 | h2
      · exact isDigit_ne_dash (natCharsAux_digit _ _ _ h2) rfl
      · have h3 : ('-' : Char) ∈ ['.'] := h2
        rw [List.mem_singleton] at h3
        exact absurd h3 (by decide)
    · exact isDigit_ne_dash (fracStr_digit _ _ h) rfl

theorem claim_C10_witness :
    format_complex ⟨.num 1, .negZero⟩ = fmt5 (.num 1) ++ " + " ++ "-0.00000" ++ "j"
    ∧ '-' ∉ (fmt5 (.num 2)).toList :=
  ⟨claim_C10.1 (.num 1), claim_C10.2 2 (by decide)⟩
